import Mathlib

/-! Verification of the streaming event consumer and progress state machine of
`src/static/tcgen/tc_generator.js` (the `generateViaStream` NDJSON consumer,
`setProgress`, `applyDoneUI`, and the download handler).

Bytes are modelled as `ℕ` (with values < 256 where it matters), JS strings as
`String` or `List Char`, JS numbers as `ℚ`, and decoded text as lists of
Unicode code points (`List ℕ`).
-/

namespace TcGen

/-- JS `Math.round`: rounds half toward positive infinity. -/
def jsRound (q : ℚ) : ℤ := ⌊q + 1/2⌋

/-- The percentage computed in the `progress` branch of `generateViaStream`
(line 370): `total ? Math.round((done / total) * 100) : 0`. -/
def progressPct (done total : ℚ) : ℤ :=
  if total ≠ 0 then jsRound (done / total * 100) else 0

/-- The clamping applied by `setProgress` (line 168):
`Math.max(0, Math.min(100, pct))`. -/
def setProgressClamped (pct : ℤ) : ℤ := max 0 (min 100 pct)

/-- The percentage width actually applied to the progress bar for a progress
event: the `progress` branch computes `progressPct` and `setProgress` clamps
it. -/
def displayedPct (done total : ℚ) : ℤ := setProgressClamped (progressPct done total)

/-- The ETA computation of the `progress` branch (lines 371-373):
`const avg = done ? (elapsedSec / done) : 0;`
`const etaSec = (avg && total) ? Math.max(0, Math.round(avg * (total - done))) : null;`
`none` models JS `null` (rendered as "unknown": the ETA suffix is omitted). -/
def etaSecOpt (done total elapsedSec : ℚ) : Option ℤ :=
  let avg : ℚ := if done ≠ 0 then elapsedSec / done else 0
  if avg ≠ 0 ∧ total ≠ 0 then some (max 0 (jsRound (avg * (total - done)))) else none

/-! Section: Frame decoder: incremental UTF-8 decoding (`new TextDecoder("utf-8")`
with `{ stream: true }`).

The decoder's internal state is the trailing bytes of an incomplete
multi-byte sequence; feeding a chunk decodes the pending bytes plus the new
chunk.  Undecodable bytes yield U+FFFD (the non-fatal replacement policy of
`TextDecoder`). -/

/-- A UTF-8 continuation byte (`0x80..0xBF`). -/
def isCont (b : ℕ) : Bool := decide (0x80 ≤ b ∧ b < 0xC0)

/-- Total sequence length demanded by a lead byte; `0` marks an invalid
lead (a stray continuation byte or `0xF8..`). -/
def needLen (b : ℕ) : ℕ :=
  if b < 0x80 then 1
  else if b < 0xC0 then 0
  else if b < 0xE0 then 2
  else if b < 0xF0 then 3
  else if b < 0xF8 then 4
  else 0

/-- Code point assembled from a lead byte and its continuation bytes. -/
def decodeSeq (b : ℕ) (conts : List ℕ) : ℕ :=
  match conts with
  | [] => b
  | [b1] => (b - 0xC0) * 0x40 + (b1 - 0x80)
  | [b1, b2] => (b - 0xE0) * 0x1000 + (b1 - 0x80) * 0x40 + (b2 - 0x80)
  | [b1, b2, b3] =>
      (b - 0xF0) * 0x40000 + (b1 - 0x80) * 0x1000 + (b2 - 0x80) * 0x40 + (b3 - 0x80)
  | _ => 0xFFFD

/-- One decoding step: `some (codePoint, bytesConsumed)`, or `none` when the
available bytes are a proper prefix of a valid sequence (the decoder must
wait for more input). -/
def utf8Step (l : List ℕ) : Option (ℕ × ℕ) :=
  match l with
  | [] => none
  | b :: rest =>
    let n := needLen b
    if n = 0 then some (0xFFFD, 1)
    else
      let conts := rest.take (n - 1)
      if conts.length < n - 1 then
        (if conts.all isCont then none else some (0xFFFD, 1))
      else
        if conts.all isCont then some (decodeSeq b conts, n) else some (0xFFFD, 1)

/-- Fuel-indexed repetition of `utf8Step`; returns the decoded code points
and the undecoded trailing bytes. -/
def utf8DecodeF : ℕ → List ℕ → List ℕ × List ℕ
  | 0, l => ([], l)
  | fuel + 1, l =>
    match utf8Step l with
    | none => ([], l)
    | some (c, k) =>
      let r := utf8DecodeF fuel (l.drop k)
      (c :: r.1, r.2)

/-- Decode a byte list: the decoded code points and the retained incomplete
trailing bytes (the `TextDecoder` stream state). -/
def utf8Decode (l : List ℕ) : List ℕ × List ℕ := utf8DecodeF l.length l

/-- Canonical UTF-8 encoding of one code point (used to state payload
validity). -/
def utf8EncodeChar (c : ℕ) : List ℕ :=
  if c < 0x80 then [c]
  else if c < 0x800 then [0xC0 + c / 0x40, 0x80 + c % 0x40]
  else if c < 0x10000 then
    [0xE0 + c / 0x1000, 0x80 + c / 0x40 % 0x40, 0x80 + c % 0x40]
  else
    [0xF0 + c / 0x40000, 0x80 + c / 0x1000 % 0x40, 0x80 + c / 0x40 % 0x40,
      0x80 + c % 0x40]

/-- UTF-8 encoding of a code-point sequence. -/
def utf8EncodeAll (cs : List ℕ) : List ℕ := (cs.map utf8EncodeChar).flatten

/-! Section: Frame decoder: line splitting.

`generateViaStream` keeps `buffer`, appends the decoded chunk text, does
`buffer.split("\n")`, emits all segments but the last, and retains the last
via `buffer = lines.pop() || ""` (lines 343-345). -/

/-- JS `text.split("\n")` over code points, as (first segment, remaining
segments); the full JS array is `r.1 :: r.2`, which is always non-empty. -/
def splitNl : List ℕ → List ℕ × List (List ℕ)
  | [] => ([], [])
  | c :: rest =>
    let r := splitNl rest
    if c = 10 then ([], r.1 :: r.2) else (c :: r.1, r.2)

/-- JS `lines.pop()` on the non-empty array `s :: ss`: all segments but the
last, and the popped last segment. -/
def popLast (s : List ℕ) : List (List ℕ) → List (List ℕ) × List ℕ
  | [] => ([], s)
  | s2 :: ss =>
    let r := popLast s2 ss
    (s :: r.1, r.2)

/-- Complete lines and trailing fragment of a text: `split("\n")` followed by
`pop()`. -/
def lineParts (l : List ℕ) : List (List ℕ) × List ℕ :=
  popLast (splitNl l).1 (splitNl l).2

/-- Frame-decoder state: the `TextDecoder` pending bytes and the line
accumulator `buffer`. -/
structure DecSt where
  pend : List ℕ
  buf : List ℕ
  deriving Repr, DecidableEq

/-- Process one byte chunk (lines 343-345): decode incrementally, append to
`buffer`, split on newlines, emit every segment but the last. -/
def feedChunk (st : DecSt) (chunk : List ℕ) : List (List ℕ) × DecSt :=
  let d := utf8Decode (st.pend ++ chunk)
  let p := lineParts (st.buf ++ d.1)
  (p.1, ⟨d.2, p.2⟩)

/-- Process a chunk sequence, concatenating the emitted lines. -/
def feedChunks (st : DecSt) : List (List ℕ) → List (List ℕ) × DecSt
  | [] => ([], st)
  | c :: cs =>
    let r := feedChunk st c
    let r2 := feedChunks r.2 cs
    (r.1 ++ r2.1, r2.2)

/-- The ordered complete lines produced by the frame decoder from a fresh
state. -/
def linesOfChunks (chunks : List (List ℕ)) : List (List ℕ) :=
  (feedChunks ⟨[], []⟩ chunks).1

/-! Section: Event model and JS falsy / nullish helpers. -/

/-- JS `v || d` for a possibly-absent numeric field (`0` is falsy). -/
def jsOrNum (v : Option ℚ) (d : ℚ) : ℚ :=
  match v with
  | none => d
  | some q => if q = 0 then d else q

/-- JS `v || d` for a possibly-absent string field (`""` is falsy). -/
def jsOrStr (v : Option String) (d : String) : String :=
  match v with
  | none => d
  | some s => if s = "" then d else s

/-- Truthiness filter on an optional string (`if (s)`): `""` and absence are
falsy. -/
def truthyStrOpt (v : Option String) : Option String :=
  match v with
  | none => none
  | some s => if s = "" then none else some s

/-- A primitive JSON value (a `progress` event's `req` is string-or-int). -/
inductive JPrim where
  | s (v : String)
  | n (v : ℚ)
  deriving Repr, DecidableEq

/-- The `usage` object of a `done` event. -/
structure Usage where
  input_tokens : Option ℚ := none
  output_tokens : Option ℚ := none
  deriving Repr, DecidableEq

/-- One entry of `stats.requirements_limit_reached_detail`. -/
structure LimitItem where
  requirement : Option JPrim := none
  omitted_tcs : Option ℚ := none
  deriving Repr, DecidableEq

/-- The `stats` object of a `done` event. -/
structure Stats where
  requirements_total : Option ℚ := none
  test_cases_total : Option ℚ := none
  requirements_not_testable : Option ℚ := none
  area_path : Option String := none
  project_id : Option String := none
  requirements_limit_reached_total : Option ℚ := none
  requirements_limit_reached_detail : Option (List LimitItem) := none
  deriving Repr, DecidableEq

/-- The fields of a `done` event read by the consumer. -/
structure DoneData where
  filename : Option String := none
  csv_b64 : Option String := none
  code : Option String := none
  message : Option String := none
  usage : Option Usage := none
  elapsed : Option ℚ := none
  stats : Option Stats := none
  deriving Repr, DecidableEq

/-- The UI record produced by `applyDoneUI` (lines 256-300): the ready-card
filename, the metric values (before `String(...)` conversion), the resolved
area label, and the limit-detail list with its hidden flag. -/
structure DoneUI where
  readyFilename : String
  mInput : ℚ
  mOutput : ℚ
  mTime : ℚ
  mReq : ℚ
  mTc : ℚ
  mNot : ℚ
  mArea : String
  mLimit : ℚ
  limitList : List LimitItem
  limitDetailHidden : Bool
  deriving Repr, DecidableEq

/-- `applyDoneUI` (lines 256-300): defaulting of usage/elapsed/stats fields,
`area_path ?? project_id ?? "-"` label resolution, `filename || "TC.csv"`,
and the `Array.isArray` guard on the limit detail. -/
def applyDoneUI (data : DoneData) : DoneUI :=
  let stats := data.stats.getD {}
  let list := stats.requirements_limit_reached_detail.getD []
  { readyFilename := jsOrStr data.filename "TC.csv"
    mInput := (data.usage.bind Usage.input_tokens).getD 0
    mOutput := (data.usage.bind Usage.output_tokens).getD 0
    mTime := data.elapsed.getD 0
    mReq := stats.requirements_total.getD 0
    mTc := stats.test_cases_total.getD 0
    mNot := stats.requirements_not_testable.getD 0
    mArea := (stats.area_path.orElse fun _ => stats.project_id).getD "-"
    mLimit := stats.requirements_limit_reached_total.getD 0
    limitList := list
    limitDetailHidden := list.isEmpty }

/-- A parsed stream event, classified by its `type` discriminant; `other`
covers any other parsed JSON value (all four `if` branches fall through). -/
inductive RawEvent where
  | meta (total_blocks : Option ℚ)
  | progress (done total : Option ℚ) (req : Option JPrim) (scenario : Option String)
  | done (d : DoneData)
  | error (code message : Option String)
  | other
  deriving Repr, DecidableEq

/-- A candidate line as the dispatcher sees it: blank after `trim()`,
rejected by `JSON.parse`, or a parsed event. -/
inductive LineItem where
  | blank
  | malformed
  | evt (e : RawEvent)
  deriving Repr, DecidableEq

/-- Mutable consumer state across the loop: `total`, `done`, the applied
progress-bar width, and the module-scoped `lastCsvB64` / `lastFilename`. -/
structure RunState where
  total : ℚ
  done : ℚ
  displayPct : ℤ
  lastCsvB64 : Option String
  lastFilename : String
  deriving Repr, DecidableEq

/-- State after `resetUIForNewRun` and the initial `setProgress(2, ...)`
(lines 188-194, 333-337). -/
def initRunState : RunState :=
  { total := 0, done := 0, displayPct := setProgressClamped 2
    lastCsvB64 := none, lastFilename := "TC.csv" }

/-- Result of dispatching one event: keep looping, `return` with the Done
payload, or `throw` (the `error` branch). -/
inductive StepResult where
  | next (st : RunState)
  | ret (st : RunState) (ui : DoneUI)
  | err (st : RunState) (code message : Option String)
  deriving Repr, DecidableEq

/-- The state carried by any step result. -/
def StepResult.state : StepResult → RunState
  | .next st => st
  | .ret st _ => st
  | .err st _ _ => st

/-- Dispatch one parsed event (lines 357-403). -/
def stepEvt (st : RunState) : RawEvent → StepResult
  | .meta tb =>
      .next { st with total := jsOrNum tb 0, displayPct := setProgressClamped 3 }
  | .progress d t _ _ =>
      let done' := jsOrNum d 0
      let total' := jsOrNum t st.total
      .next { st with done := done', total := total'
                      displayPct := displayedPct done' total' }
  | .done dd =>
      .ret { st with displayPct := setProgressClamped 100
                     lastCsvB64 := truthyStrOpt dd.csv_b64
                     lastFilename := jsOrStr dd.filename "TC.csv" }
        (applyDoneUI dd)
  | .error c m => .err st c m
  | .other => .next st

/-- Process one candidate line (lines 347-355): blank lines and JSON parse
failures are skipped silently; a parsed event is dispatched and recorded. -/
def stepLine (st : RunState) : LineItem → StepResult × List RawEvent
  | .blank => (.next st, [])
  | .malformed => (.next st, [])
  | .evt e => (stepEvt st e, [e])

/-- Outcome of the per-chunk `for` loop over candidate lines. -/
inductive LoopOut where
  | more (st : RunState)
  | ret (st : RunState) (ui : DoneUI)
  | err (st : RunState) (code message : Option String)
  deriving Repr, DecidableEq

/-- Run the dispatcher over a list of candidate lines, collecting the parsed
events in wire order; `done` / `error` stop the loop immediately. -/
def runLines (st : RunState) : List LineItem → LoopOut × List RawEvent
  | [] => (.more st, [])
  | l :: ls =>
    match stepLine st l with
    | (.next st', tr) =>
        let r := runLines st' ls
        (r.1, tr ++ r.2)
    | (.ret st' ui, tr) => (.ret st' ui, tr)
    | (.err st' c m, tr) => (.err st' c m, tr)

/-- Terminal outcome of a whole stream consumption. -/
inductive StreamOut where
  | success (st : RunState) (ui : DoneUI)
  | serverError (st : RunState) (code message : Option String)
  | streamEnded (st : RunState)
  deriving Repr, DecidableEq

/-- Wrap a finished line-loop outcome: running out of input with no terminal
event is the line-407 `UI_STREAM_ENDED` throw (the `StreamProtocolError`). -/
def endWrap : LoopOut × List RawEvent → StreamOut × List RawEvent
  | (.more st, tr) => (.streamEnded st, tr)
  | (.ret st ui, tr) => (.success st ui, tr)
  | (.err st c m, tr) => (.serverError st c m, tr)

/-- The `while (true)` reader loop (lines 339-407): per chunk, decode and
split lines, classify each line (`trim` + `JSON.parse`, abstracted as
`classify`), and dispatch; when the chunks are exhausted with no terminal
event, throw `UI_STREAM_ENDED`. -/
def consumeChunks (classify : List ℕ → LineItem) (st : RunState) (ds : DecSt) :
    List (List ℕ) → StreamOut × List RawEvent
  | [] => (.streamEnded st, [])
  | c :: cs =>
    let f := feedChunk ds c
    match runLines st (f.1.map classify) with
    | (.more st', tr) =>
        let r := consumeChunks classify st' f.2 cs
        (r.1, tr ++ r.2)
    | (.ret st' ui, tr) => (.success st' ui, tr)
    | (.err st' cd m, tr) => (.serverError st' cd m, tr)

/-- Consume a byte-chunk sequence from the initial state, returning the
terminal outcome and the ordered list of parsed events. -/
def runStream (classify : List ℕ → LineItem) (chunks : List (List ℕ)) :
    StreamOut × List RawEvent :=
  consumeChunks classify initRunState ⟨[], []⟩ chunks

/-- A line item carrying a terminal (`done` / `error`) event. -/
def isTerminal : LineItem → Bool
  | .evt (.done _) => true
  | .evt (.error _ _) => true
  | _ => false

/-- Prepend a code point to the first segment of a segment list, if any
(helper for reasoning about `lineParts`). -/
def consFirst (c : ℕ) : List (List ℕ) → List (List ℕ)
  | [] => []
  | a :: as => (c :: a) :: as

/-- Reachable frame-decoder states: the pending bytes are a proper prefix of
a sequence (they decode to nothing) and the buffer holds no newline. -/
def DecInv (st : DecSt) : Prop :=
  utf8Decode st.pend = ([], st.pend) ∧ lineParts st.buf = ([], st.buf)

/-- Continue a finished line-loop outcome with further candidate lines
(helper for reasoning about `runLines` over concatenations). -/
def loopSeq (r : LoopOut × List RawEvent) (ls : List LineItem) :
    LoopOut × List RawEvent :=
  match r with
  | (.more st, tr) =>
      let r2 := runLines st ls
      (r2.1, tr ++ r2.2)
  | out => out

/-! Section: Result cache and downloader (lines 216-254, 525-555). -/

/-- The base64 alphabet, in index order. -/
def b64Alphabet : List Char :=
  "ABCDEFGHIJKLMNOPQRSTUVWXYZabcdefghijklmnopqrstuvwxyz0123456789+/".toList

/-- The 6-bit value of a base64 digit (64 for a non-alphabet character). -/
def b64Val (c : Char) : ℕ := b64Alphabet.indexOf c

/-- The base64 digit of a 6-bit value. -/
def b64Char (n : ℕ) : Char := b64Alphabet.getD n 'A'

/-- Decode base64 in groups of four digits, honouring `=` padding: the model
of `atob` composed with the `charCodeAt` loop of `base64ToUint8Array`
(lines 237-243). -/
def atobGroups : List Char → List ℕ
  | a :: b :: c2 :: d :: rest =>
    if c2 = '=' then [b64Val a * 4 + b64Val b / 16]
    else if d = '=' then
      [b64Val a * 4 + b64Val b / 16, b64Val b % 16 * 16 + b64Val c2 / 4]
    else
      (b64Val a * 4 + b64Val b / 16) ::
        (b64Val b % 16 * 16 + b64Val c2 / 4) ::
          (b64Val c2 % 4 * 64 + b64Val d) :: atobGroups rest
  | _ => []

/-- `base64ToUint8Array` (lines 237-243): the raw bytes of a base64 payload. -/
def atobBytes (s : String) : List ℕ := atobGroups s.toList

/-- Reference base64 encoding of a byte list (RFC 4648 with padding), used to
state that decoding recovers exactly the encoded bytes. -/
def btoaChars : List ℕ → List Char
  | [] => []
  | [x] => [b64Char (x / 4), b64Char (x % 4 * 16), '=', '=']
  | [x, y] =>
    [b64Char (x / 4), b64Char (x % 4 * 16 + y / 16), b64Char (y % 16 * 4), '=']
  | x :: y :: z :: rest =>
    b64Char (x / 4) :: b64Char (x % 4 * 16 + y / 16) ::
      b64Char (y % 16 * 4 + z / 64) :: b64Char (z % 64) :: btoaChars rest

/-- ASCII lower-casing of one character (the `/i` flag of the filename
regex). -/
def charLower (c : Char) : Char :=
  if 'A' ≤ c ∧ c ≤ 'Z' then Char.ofNat (c.toNat + 32) else c

/-- The literal part of the pattern `/filename="([^"]+)"/i`. -/
def patFilename : List Char := ['f', 'i', 'l', 'e', 'n', 'a', 'm', 'e', '=', '"']

/-- Does `filename="` match (case-insensitively) at the head of `s`? -/
def matchesAt (s : List Char) : Bool := (s.take 10).map charLower == patFilename

/-- Leftmost match of `/filename="([^"]+)"/i`: at the first position where
the literal matches, capture the non-empty run of non-quote characters,
which must be terminated by a closing quote; otherwise keep searching. -/
def findCapture : List Char → Option (List Char)
  | [] => none
  | c :: rest =>
    if matchesAt (c :: rest) then
      let after := List.drop 10 (c :: rest)
      let cap := after.takeWhile fun ch => ch != '"'
      if 0 < cap.length ∧ cap.length < after.length then some cap
      else findCapture rest
    else findCapture rest

/-- `cd.match(/filename="([^"]+)"/i)` with the `match && match[1]` guard
(lines 229-232). -/
def cdFilename (cd : String) : Option String :=
  (findCapture cd.toList).map fun cs => String.mk cs

/-- The fields of the fallback retrieval response read by
`downloadCsvNoReload`. -/
structure HttpResponse where
  ok : Bool
  contentDisposition : Option String
  body : List ℕ
  deriving Repr, DecidableEq

/-- What the download click materializes. -/
inductive DownloadOutcome where
  | saved (bytes : List ℕ) (filename : String)
  | failed (msg : String)
  | noUrl
  deriving Repr, DecidableEq

/-- `downloadCsvNoReload` (lines 216-235): a non-ok response throws
`UI_DOWNLOAD_FAILED`; otherwise the body is saved under the filename from
the `Content-Disposition` header, defaulting to `"TC.csv"`. -/
def downloadCsvNoReload (resp : HttpResponse) : Except String (List ℕ × String) :=
  if resp.ok then
    (.ok (resp.body, (cdFilename (resp.contentDisposition.getD "")).getD "TC.csv"))
  else (.error "UI_DOWNLOAD_FAILED")

/-- The download click handler (lines 526-547); the second component counts
the network requests issued. -/
def downloadClick (lastCsvB64 : Option String) (lastFilename : String)
    (downloadUrl : Option String) (resp : HttpResponse) : DownloadOutcome × ℕ :=
  match truthyStrOpt lastCsvB64 with
  | some b64 => (.saved (atobBytes b64) lastFilename, 0)
  | none =>
    match truthyStrOpt downloadUrl with
    | none => (.noUrl, 0)
    | some _ =>
      match downloadCsvNoReload resp with
      | .error m => (.failed m, 1)
      | .ok (bytes, fn) => (.saved bytes fn, 1)

/-! Section: Lemmas: incremental UTF-8 decoding is chunking-invariant. -/

theorem utf8Step_some {l : List ℕ} {c k : ℕ} (h : utf8Step l = some (c, k)) :
    1 ≤ k ∧ k ≤ l.length ∧ ∀ y, utf8Step (l ++ y) = some (c, k) := by
  match l with
  | [] => simp [utf8Step] at h
  | b :: rest =>
    simp only [utf8Step] at h
    by_cases h0 : needLen b = 0
    · rw [if_pos h0] at h
      obtain ⟨rfl, rfl⟩ := Prod.mk.injEq .. ▸ Option.some_inj.mp h
      refine ⟨le_refl 1, by simp, fun y => ?_⟩
      simp [utf8Step, h0]
    · rw [if_neg h0] at h
      by_cases hshort : (rest.take (needLen b - 1)).length < needLen b - 1
      · rw [if_pos hshort] at h
        by_cases hall : (rest.take (needLen b - 1)).all isCont
        · rw [if_pos hall] at h
          exact absurd h (by simp)
        · rw [if_neg hall] at h
          obtain ⟨rfl, rfl⟩ := Prod.mk.injEq .. ▸ Option.some_inj.mp h
          refine ⟨le_refl 1, by simp, fun y => ?_⟩
          have hrest : rest.length < needLen b - 1 := by
            have := List.length_take (needLen b - 1) rest
            omega
          have htake : rest.take (needLen b - 1) = rest :=
            List.take_of_length_le (by omega)
          rw [htake] at hall
          have hall2 : ¬ ((rest ++ y).take (needLen b - 1)).all isCont := by
            rw [List.take_append_eq_append_take, List.take_of_length_le (le_of_lt hrest),
              List.all_append]
            simp [hall]
          simp only [utf8Step, List.cons_append]
          rw [if_neg h0]
          by_cases h2 : (((rest ++ y).take (needLen b - 1)).length < needLen b - 1)
          · rw [if_pos h2, if_neg hall2]
          · rw [if_neg h2, if_neg hall2]
      · rw [if_neg hshort] at h
        have hlen : needLen b - 1 ≤ rest.length := by
          have := List.length_take (needLen b - 1) rest
          omega
        have htake : ∀ y : List ℕ, (rest ++ y).take (needLen b - 1) = rest.take (needLen b - 1) :=
          fun _ => List.take_append_of_le_length hlen
        by_cases hall : (rest.take (needLen b - 1)).all isCont
        · rw [if_pos hall] at h
          obtain ⟨rfl, rfl⟩ := Prod.mk.injEq .. ▸ Option.some_inj.mp h
          refine ⟨by omega, by simp; omega, fun y => ?_⟩
          simp only [utf8Step, List.cons_append]
          rw [if_neg h0, htake y, if_neg hshort, if_pos hall]
        · rw [if_neg hall] at h
          obtain ⟨rfl, rfl⟩ := Prod.mk.injEq .. ▸ Option.some_inj.mp h
          refine ⟨le_refl 1, by simp, fun y => ?_⟩
          simp only [utf8Step, List.cons_append]
          rw [if_neg h0, htake y, if_neg hshort, if_neg hall]

theorem utf8DecodeF_nil (f : ℕ) : utf8DecodeF f [] = ([], []) := by
  cases f <;> simp [utf8DecodeF, utf8Step]

theorem utf8DecodeF_fuel : ∀ (f g : ℕ) (l : List ℕ),
    l.length ≤ f → l.length ≤ g → utf8DecodeF f l = utf8DecodeF g l := by
  intro f
  induction f with
  | zero =>
    intro g l h1 _
    obtain rfl : l = [] := List.length_eq_zero.mp (by omega)
    rw [utf8DecodeF_nil, utf8DecodeF_nil]
  | succ f ih =>
    intro g l h1 h2
    match l with
    | [] => rw [utf8DecodeF_nil, utf8DecodeF_nil]
    | b :: rest =>
      match g with
      | 0 => simp at h2
      | g + 1 =>
        rw [utf8DecodeF, utf8DecodeF]
        cases hs : utf8Step (b :: rest) with
        | none => rfl
        | some ck =>
          obtain ⟨c, k⟩ := ck
          obtain ⟨hk1, hk2, -⟩ := utf8Step_some hs
          simp only [List.length_cons] at h1 h2 hk2
          simp only []
          rw [ih g ((b :: rest).drop k)
            (by simp only [List.length_drop, List.length_cons]; omega)
            (by simp only [List.length_drop, List.length_cons]; omega)]

theorem utf8Decode_step_none {l : List ℕ} (h : utf8Step l = none) :
    utf8Decode l = ([], l) := by
  match l with
  | [] => rfl
  | b :: rest => rw [utf8Decode, List.length_cons, utf8DecodeF, h]

theorem utf8Decode_step_some {l : List ℕ} {c k : ℕ} (h : utf8Step l = some (c, k)) :
    utf8Decode l = (c :: (utf8Decode (l.drop k)).1, (utf8Decode (l.drop k)).2) := by
  match l with
  | [] => simp [utf8Step] at h
  | b :: rest =>
    obtain ⟨hk1, hk2, -⟩ := utf8Step_some h
    simp only [List.length_cons] at hk2
    rw [utf8Decode, List.length_cons, utf8DecodeF, h]
    dsimp only
    rw [utf8DecodeF_fuel rest.length ((b :: rest).drop k).length ((b :: rest).drop k)
      (by simp only [List.length_drop, List.length_cons]; omega) (le_refl _), ← utf8Decode]

theorem utf8Decode_append : ∀ (x y : List ℕ),
    utf8Decode (x ++ y)
      = ((utf8Decode x).1 ++ (utf8Decode ((utf8Decode x).2 ++ y)).1,
         (utf8Decode ((utf8Decode x).2 ++ y)).2) := by
  have main : ∀ (n : ℕ) (x y : List ℕ), x.length ≤ n →
      utf8Decode (x ++ y)
        = ((utf8Decode x).1 ++ (utf8Decode ((utf8Decode x).2 ++ y)).1,
           (utf8Decode ((utf8Decode x).2 ++ y)).2) := by
    intro n
    induction n with
    | zero =>
      intro x y h
      obtain rfl : x = [] := List.length_eq_zero.mp (by omega)
      simp [utf8Decode, utf8DecodeF_nil]
    | succ n ih =>
      intro x y hle
      cases hs : utf8Step x with
      | none =>
        rw [utf8Decode_step_none hs]
        simp
      | some ck =>
        obtain ⟨c, k⟩ := ck
        obtain ⟨hk1, hkx, hmono⟩ := utf8Step_some hs
        rw [utf8Decode_step_some hs, utf8Decode_step_some (hmono y),
          List.drop_append_of_le_length hkx,
          ih (x.drop k) y (by simp [List.length_drop]; omega)]
        simp
  exact fun x y => main x.length x y (le_refl _)

theorem utf8Decode_pend (l : List ℕ) :
    utf8Decode ((utf8Decode l).2) = ([], (utf8Decode l).2) := by
  have h := utf8Decode_append l []
  rw [List.append_nil, List.append_nil] at h
  have h1 : (utf8Decode l).1 ++ (utf8Decode ((utf8Decode l).2)).1 = (utf8Decode l).1 ++ [] := by
    rw [List.append_nil]
    exact (congrArg Prod.fst h).symm
  have h2 := congrArg Prod.snd h
  refine Prod.ext ?_ ?_
  · exact (List.append_cancel_left h1)
  · exact h2.symm

/-! Section: Lemmas: line splitting with a retained trailing fragment is
chunking-invariant. -/

theorem popLast_fst_eq_nil {s : List ℕ} {ss : List (List ℕ)} :
    (popLast s ss).1 = [] ↔ ss = [] := by
  cases ss <;> simp [popLast]

theorem lineParts_nil : lineParts [] = ([], []) := rfl

theorem lineParts_nl (l : List ℕ) :
    lineParts (10 :: l) = ([] :: (lineParts l).1, (lineParts l).2) := by
  simp [lineParts, splitNl, popLast]

theorem lineParts_cons {c : ℕ} (h : c ≠ 10) (l : List ℕ) :
    lineParts (c :: l)
      = (consFirst c (lineParts l).1,
         if (lineParts l).1 = [] then c :: (lineParts l).2 else (lineParts l).2) := by
  simp only [lineParts, splitNl, if_neg h]
  cases hss : (splitNl l).2 with
  | nil => simp [popLast, consFirst, hss]
  | cons s2 ss =>
    simp only [popLast, consFirst]
    simp [popLast_fst_eq_nil, hss]

theorem lineParts_append : ∀ (x y : List ℕ),
    lineParts (x ++ y)
      = ((lineParts x).1 ++ (lineParts ((lineParts x).2 ++ y)).1,
         (lineParts ((lineParts x).2 ++ y)).2) := by
  intro x
  induction x with
  | nil => intro y; simp [lineParts_nil]
  | cons c x' ih =>
    intro y
    by_cases hc : c = 10
    · subst hc
      rw [List.cons_append, lineParts_nl, lineParts_nl, ih y]
      simp
    · rw [List.cons_append, lineParts_cons hc, lineParts_cons hc, ih y]
      rcases hA : (lineParts x').1 with - | ⟨a, as⟩
      · simp [consFirst, lineParts_cons hc]
      · simp [consFirst]

theorem lineParts_trail (l : List ℕ) :
    lineParts ((lineParts l).2) = ([], (lineParts l).2) := by
  have h := lineParts_append l []
  rw [List.append_nil, List.append_nil] at h
  have h1 : (lineParts l).1 ++ (lineParts ((lineParts l).2)).1 = (lineParts l).1 ++ [] := by
    rw [List.append_nil]
    exact (congrArg Prod.fst h).symm
  have h2 := congrArg Prod.snd h
  exact Prod.ext (List.append_cancel_left h1) h2.symm

/-! Section: Lemmas: the frame decoder emits the same lines for any chunking. -/

theorem feedChunk_append (st : DecSt) (a b : List ℕ) :
    feedChunk st (a ++ b)
      = ((feedChunk st a).1 ++ (feedChunk (feedChunk st a).2 b).1,
         (feedChunk (feedChunk st a).2 b).2) := by
  simp only [feedChunk]
  rw [← List.append_assoc, utf8Decode_append (st.pend ++ a) b]
  simp only []
  rw [← List.append_assoc, lineParts_append
    (st.buf ++ (utf8Decode (st.pend ++ a)).1)
    (utf8Decode ((utf8Decode (st.pend ++ a)).2 ++ b)).1]

theorem DecInv_init : DecInv ⟨[], []⟩ := ⟨rfl, rfl⟩

theorem DecInv_feedChunk (st : DecSt) (c : List ℕ) : DecInv (feedChunk st c).2 :=
  ⟨utf8Decode_pend _, lineParts_trail _⟩

theorem feedChunk_nil {st : DecSt} (h : DecInv st) : feedChunk st [] = ([], st) := by
  obtain ⟨h1, h2⟩ := h
  simp [feedChunk, h1, h2]

theorem feedChunks_join : ∀ (chunks : List (List ℕ)) (st : DecSt), DecInv st →
    feedChunks st chunks = feedChunk st chunks.flatten := by
  intro chunks
  induction chunks with
  | nil =>
    intro st h
    rw [List.flatten_nil, feedChunk_nil h, feedChunks]
  | cons c cs ih =>
    intro st h
    rw [List.flatten_cons, feedChunk_append st c cs.flatten, feedChunks]
    rw [ih (feedChunk st c).2 (DecInv_feedChunk st c)]

theorem linesOfChunks_join (chunks : List (List ℕ)) :
    linesOfChunks chunks = linesOfChunks [chunks.flatten] := by
  simp only [linesOfChunks]
  rw [feedChunks_join chunks ⟨[], []⟩ DecInv_init]
  rw [feedChunks, feedChunks]
  simp

/-! Section: Lemmas: the dispatcher loop. -/

theorem runLines_append (st : RunState) (A B : List LineItem) :
    runLines st (A ++ B) = loopSeq (runLines st A) B := by
  induction A generalizing st with
  | nil => simp [runLines, loopSeq]
  | cons l ls ih =>
    rw [List.cons_append, runLines, runLines]
    rcases hs : stepLine st l with ⟨sr, tr⟩
    cases sr with
    | next st' =>
      simp only []
      rw [ih st']
      rcases h2 : runLines st' ls with ⟨o2, tr2⟩
      cases o2 <;> simp [loopSeq, List.append_assoc]
    | ret st' ui => simp [loopSeq]
    | err st' c m => simp [loopSeq]

theorem consumeChunks_eq (classify : List ℕ → LineItem) :
    ∀ (chunks : List (List ℕ)) (st : RunState) (ds : DecSt),
    consumeChunks classify st ds chunks
      = endWrap (runLines st (((feedChunks ds chunks).1).map classify)) := by
  intro chunks
  induction chunks with
  | nil =>
    intro st ds
    rw [consumeChunks, feedChunks]
    simp [runLines, endWrap]
  | cons c cs ih =>
    intro st ds
    rw [consumeChunks, feedChunks]
    simp only [List.map_append]
    rw [runLines_append]
    rcases h1 : runLines st (((feedChunk ds c).1).map classify) with ⟨o, tr⟩
    cases o with
    | more st' =>
      simp only []
      rw [ih st' (feedChunk ds c).2]
      rcases h2 : runLines st' (((feedChunks (feedChunk ds c).2 cs).1).map classify)
        with ⟨o2, tr2⟩
      cases o2 <;> simp [loopSeq, endWrap, h2]
    | ret st' ui => simp [loopSeq, endWrap]
    | err st' cd m => simp [loopSeq, endWrap]

theorem runLines_no_terminal :
    ∀ (ls : List LineItem) (st : RunState), (∀ l ∈ ls, isTerminal l = false) →
      ∃ st', (runLines st ls).1 = .more st' := by
  intro ls
  induction ls with
  | nil => intro st _; exact ⟨st, rfl⟩
  | cons l ls ih =>
    intro st h
    have hl : isTerminal l = false := h l (by simp)
    have hrest : ∀ x ∈ ls, isTerminal x = false := fun x hx => h x (by simp [hx])
    rw [runLines]
    match l with
    | .blank => exact ih st hrest
    | .malformed => exact ih st hrest
    | .evt e =>
      match e with
      | .meta tb => exact ih _ hrest
      | .progress d t r sc => exact ih _ hrest
      | .other => exact ih _ hrest
      | .done dd => simp [isTerminal] at hl
      | .error c m => simp [isTerminal] at hl

theorem stepLine_not_terminal {l : LineItem} (h : isTerminal l = false)
    (st : RunState) : ∃ st1 tr, stepLine st l = (.next st1, tr) := by
  match l with
  | .blank => exact ⟨st, [], rfl⟩
  | .malformed => exact ⟨st, [], rfl⟩
  | .evt e =>
    match e with
    | .meta tb => exact ⟨_, _, rfl⟩
    | .progress d t r sc => exact ⟨_, _, rfl⟩
    | .other => exact ⟨st, _, rfl⟩
    | .done dd => simp [isTerminal] at h
    | .error c m => simp [isTerminal] at h

theorem runLines_skip_malformed :
    ∀ (pre : List LineItem) (st : RunState) (post : List LineItem),
      runLines st (pre ++ .malformed :: post) = runLines st (pre ++ post) := by
  intro pre
  induction pre with
  | nil =>
    intro st post
    rw [List.nil_append, List.nil_append, runLines]
    simp [stepLine]
  | cons l pre' ih =>
    intro st post
    rw [List.cons_append, List.cons_append, runLines, runLines]
    rcases hs : stepLine st l with ⟨sr, tr⟩
    cases sr <;> simp [ih]

/-- Claim C1: chunk-boundary invariance.  For a valid UTF-8 line-delimited
payload, any partition of its bytes into chunks (including partitions that
split a multi-byte character) makes the frame decoder emit the same ordered
list of complete lines as the whole payload in one chunk, and therefore the
whole consumer (for any line classification function modelling
`trim` + `JSON.parse`) produces the same outcome and the same ordered list
of parsed events. -/
theorem chunk_boundary_invariance (chunks : List (List ℕ)) (cs : List ℕ)
    (_hvalid : chunks.flatten = utf8EncodeAll cs) :
    linesOfChunks chunks = linesOfChunks [chunks.flatten]
    ∧ ∀ classify : List ℕ → LineItem,
        runStream classify chunks = runStream classify [chunks.flatten] := by
  refine ⟨linesOfChunks_join chunks, fun classify => ?_⟩
  rw [runStream, runStream, consumeChunks_eq, consumeChunks_eq]
  have hl := linesOfChunks_join chunks
  simp only [linesOfChunks] at hl
  rw [hl]

/-- Witness for C1 at a concrete two-chunk partition of the payload
"é\n" that splits the two-byte character `é` across the chunk boundary. -/
theorem chunk_boundary_invariance_witness :
    (([[0xC3], [0xA9, 10]] : List (List ℕ)).flatten = utf8EncodeAll [0xE9, 10])
    ∧ (linesOfChunks [[0xC3], [0xA9, 10]]
          = linesOfChunks [([[0xC3], [0xA9, 10]] : List (List ℕ)).flatten]
        ∧ ∀ classify : List ℕ → LineItem,
            runStream classify [[0xC3], [0xA9, 10]]
              = runStream classify [([[0xC3], [0xA9, 10]] : List (List ℕ)).flatten]) :=
  ⟨by decide, chunk_boundary_invariance [[0xC3], [0xA9, 10]] [0xE9, 10] (by decide)⟩

/-- Claim C4: resilience to malformed frames.  A line that fails JSON
parsing, sitting between two parsed event lines, is skipped silently: the
whole run (outcome, final state and ordered event trace) is identical to the
run without the malformed line, so the surrounding events are delivered in
their original order and nothing is aborted. -/
theorem malformed_line_skipped (st : RunState) (pre post : List LineItem)
    (e1 e2 : RawEvent) :
    runLines st (pre ++ .evt e1 :: .malformed :: .evt e2 :: post)
      = runLines st (pre ++ .evt e1 :: .evt e2 :: post) := by
  have h := runLines_skip_malformed (pre ++ [.evt e1]) st (.evt e2 :: post)
  simpa [List.append_assoc] using h

/-- Claim C5: truncated stream.  If the decoded lines contain no terminal
`done`/`error` event, the consumer ends in the `UI_STREAM_ENDED` throw
(`StreamProtocolError`) when the byte stream ends; moreover the emitted
lines are exactly the newline-terminated segments of the full decoded text —
the trailing accumulator is retained in the decoder state and never emitted
as a line. -/
theorem truncated_stream (chunks : List (List ℕ)) (classify : List ℕ → LineItem)
    (h : ∀ l ∈ linesOfChunks chunks, isTerminal (classify l) = false) :
    (∃ st, (runStream classify chunks).1 = .streamEnded st)
    ∧ linesOfChunks chunks = (lineParts (utf8Decode chunks.flatten).1).1
    ∧ (feedChunks ⟨[], []⟩ chunks).2.buf
        = (lineParts (utf8Decode chunks.flatten).1).2 := by
  have hfeed := feedChunks_join chunks ⟨[], []⟩ DecInv_init
  have hfc : feedChunk (⟨[], []⟩ : DecSt) chunks.flatten
      = ((lineParts (utf8Decode chunks.flatten).1).1,
         ⟨(utf8Decode chunks.flatten).2, (lineParts (utf8Decode chunks.flatten).1).2⟩) := by
    simp [feedChunk]
  refine ⟨?_, ?_, ?_⟩
  · have h2 : ∀ x ∈ (linesOfChunks chunks).map classify, isTerminal x = false := by
      intro x hx
      obtain ⟨l, hl, rfl⟩ := List.mem_map.mp hx
      exact h l hl
    obtain ⟨st', hst⟩ := runLines_no_terminal _ initRunState h2
    refine ⟨st', ?_⟩
    rw [runStream, consumeChunks_eq]
    simp only [linesOfChunks] at hst
    rcases hr : runLines initRunState (((feedChunks ⟨[], []⟩ chunks).1).map classify)
      with ⟨o, tr⟩
    rw [hr] at hst
    simp only [] at hst
    subst hst
    simp [endWrap, hr]
  · show (feedChunks (⟨[], []⟩ : DecSt) chunks).1 = _
    rw [hfeed, hfc]
  · rw [hfeed, hfc]

/-- Witness for C5: a single chunk "a\nb" whose only complete line is "a"
(classified as a non-terminal `meta` event); the trailing fragment "b" is
retained, and the stream ends in the protocol error. -/
theorem truncated_stream_witness :
    (∀ l ∈ linesOfChunks [[97, 10, 98]],
        isTerminal ((fun _ => LineItem.evt (.meta (some 1))) l) = false)
    ∧ ((∃ st, (runStream (fun _ => LineItem.evt (.meta (some 1))) [[97, 10, 98]]).1
          = .streamEnded st)
        ∧ linesOfChunks [[97, 10, 98]]
            = (lineParts (utf8Decode ([[97, 10, 98]] : List (List ℕ)).flatten).1).1
        ∧ (feedChunks ⟨[], []⟩ [[97, 10, 98]]).2.buf
            = (lineParts (utf8Decode ([[97, 10, 98]] : List (List ℕ)).flatten).1).2) :=
  ⟨by decide, truncated_stream [[97, 10, 98]] (fun _ => LineItem.evt (.meta (some 1)))
    (by decide)⟩

/-- Claim C6: terminal events halt consumption.  With no terminal line
before it, the first `done`/`error` line makes the run identical to the run
over exactly the lines up to and including it — no later line is processed —
and the outcome is a `return` with the Done payload, respectively a `throw`
carrying the supplied code and message. -/
theorem terminal_halts :
    ∀ (pre : List LineItem) (st : RunState) (post : List LineItem) (t : LineItem),
    (∀ l ∈ pre, isTerminal l = false) → isTerminal t = true →
    runLines st (pre ++ t :: post) = runLines st (pre ++ [t])
    ∧ (∀ dd, t = .evt (.done dd) →
        ∃ st', (runLines st (pre ++ t :: post)).1 = .ret st' (applyDoneUI dd))
    ∧ (∀ c m, t = .evt (.error c m) →
        ∃ st', (runLines st (pre ++ t :: post)).1 = .err st' c m) := by
  intro pre
  induction pre with
  | nil =>
    intro st post t hpre ht
    match t with
    | .blank => simp [isTerminal] at ht
    | .malformed => simp [isTerminal] at ht
    | .evt (.meta tb) => simp [isTerminal] at ht
    | .evt (.progress d tt r sc) => simp [isTerminal] at ht
    | .evt .other => simp [isTerminal] at ht
    | .evt (.done dd) =>
      refine ⟨by simp [runLines, stepLine, stepEvt], ?_, ?_⟩
      · intro dd' hdd
        simp only [LineItem.evt.injEq, RawEvent.done.injEq] at hdd
        subst hdd
        refine ⟨{ st with displayPct := setProgressClamped 100, lastCsvB64 := truthyStrOpt dd.csv_b64, lastFilename := jsOrStr dd.filename "TC.csv" }, ?_⟩
        simp [runLines, stepLine, stepEvt]
      · intro c m hcm
        simp at hcm
    | .evt (.error c m) =>
      refine ⟨by simp [runLines, stepLine, stepEvt], ?_, ?_⟩
      · intro dd hdd
        simp at hdd
      · intro c' m' hcm
        simp only [LineItem.evt.injEq, RawEvent.error.injEq] at hcm
        obtain ⟨rfl, rfl⟩ := hcm
        exact ⟨st, by simp [runLines, stepLine, stepEvt]⟩
  | cons l pre' ih =>
    intro st post t hpre ht
    have hl : isTerminal l = false := hpre l (by simp)
    have hpre' : ∀ x ∈ pre', isTerminal x = false := fun x hx => hpre x (by simp [hx])
    obtain ⟨st1, tr1, hstep⟩ := stepLine_not_terminal hl st
    rw [List.cons_append, List.cons_append, runLines, runLines, hstep]
    dsimp only
    obtain ⟨h1, h2, h3⟩ := ih st1 post t hpre' ht
    exact ⟨by rw [h1], h2, h3⟩

/-- Witness for C6: a blank line, then a `done` line, then a trailing
`error` line that must never be processed. -/
theorem terminal_halts_witness :
    (∀ l ∈ ([.blank] : List LineItem), isTerminal l = false)
    ∧ isTerminal (.evt (.done {})) = true
    ∧ (runLines initRunState ([.blank] ++ .evt (.done {}) :: [.evt (.error none none)])
          = runLines initRunState ([.blank] ++ [.evt (.done {})])
        ∧ (∀ dd, LineItem.evt (.done {}) = .evt (.done dd) →
            ∃ st', (runLines initRunState
                ([.blank] ++ .evt (.done {}) :: [.evt (.error none none)])).1
              = .ret st' (applyDoneUI dd))
        ∧ (∀ c m, LineItem.evt (.done {}) = .evt (.error c m) →
            ∃ st', (runLines initRunState
                ([.blank] ++ .evt (.done {}) :: [.evt (.error none none)])).1
              = .err st' c m)) :=
  ⟨by simp [isTerminal], by simp [isTerminal],
    terminal_halts [.blank] initRunState [.evt (.error none none)] (.evt (.done {}))
      (by simp [isTerminal]) (by simp [isTerminal])⟩

/-- Claim C2: percent bounds.  For all non-negative integers `done` and
`total`, the percentage applied to the progress display is `0` when
`total = 0` and `clamp(round(done/total*100), 0, 100)` otherwise, and in
both cases lies in `[0, 100]` (also when `done > total`). -/
theorem percent_bounds (done total : ℕ) :
    displayedPct (done : ℚ) (total : ℚ)
        = (if total = 0 then 0
           else max 0 (min 100 (jsRound ((done : ℚ) / (total : ℚ) * 100))))
    ∧ 0 ≤ displayedPct (done : ℚ) (total : ℚ)
    ∧ displayedPct (done : ℚ) (total : ℚ) ≤ 100 := by
  refine ⟨?_, le_max_left 0 _, max_le (by norm_num) (min_le_left 100 _)⟩
  by_cases h : total = 0
  · subst h
    simp [displayedPct, progressPct, setProgressClamped]
  · have h2 : ((total : ℕ) : ℚ) ≠ 0 := Nat.cast_ne_zero.mpr h
    simp [displayedPct, progressPct, setProgressClamped, h, h2]

/-- Counterexample to claim C3 as stated: at `done = 1`, `total = 0`,
`elapsedSeconds = 5` the code yields an unknown ETA (`null`) although
`done ≠ 0`, so "the ETA is unknown if and only if `done == 0`" is false:
the `(avg && total)` guard also demands a non-zero `total` (and a non-zero
elapsed time). -/
theorem eta_counterexample : etaSecOpt 1 0 5 = none ∧ (1 : ℚ) ≠ 0 := by
  constructor
  · simp [etaSecOpt]
  · norm_num

/-- Claim C3, amended: the ETA is unknown if and only if `done = 0` or
`elapsedSeconds = 0` or `total = 0`; otherwise it equals
`max(0, round((elapsedSeconds/done) * max(0, total-done)))` and is
non-negative. -/
theorem eta_amended (done total : ℕ) (e : ℚ) (he : 0 ≤ e) :
    (etaSecOpt (done : ℚ) (total : ℚ) e = none ↔ (done = 0 ∨ e = 0 ∨ total = 0))
    ∧ ∀ z, etaSecOpt (done : ℚ) (total : ℚ) e = some z →
        z = max 0 (jsRound ((e / (done : ℚ)) * max 0 ((total : ℚ) - (done : ℚ))))
        ∧ 0 ≤ z := by
  have hdone : ((done : ℕ) : ℚ) = 0 ↔ done = 0 := Nat.cast_eq_zero
  have htotal : ((total : ℕ) : ℚ) = 0 ↔ total = 0 := Nat.cast_eq_zero
  constructor
  · simp only [etaSecOpt]
    by_cases hd : ((done : ℕ) : ℚ) = 0
    · simp [hd, hdone.mp hd]
    · have havg : e / (done : ℚ) = 0 ↔ e = 0 := by
        rw [div_eq_zero_iff]
        simp [hd]
      by_cases hz : e / (done : ℚ) = 0
      · simp [hd, hz, havg.mp hz]
      · by_cases ht : ((total : ℕ) : ℚ) = 0
        · simp [hd, hz, ht, htotal.mp ht]
        · simp only [if_neg hd, ne_eq, hz, not_false_eq_true, ht, and_self, if_true]
          simp [hdone, htotal] at hd ht
          simp [havg] at hz
          simp [hd, hz, ht]
  · intro z hz
    simp only [etaSecOpt] at hz
    by_cases hd : ((done : ℕ) : ℚ) = 0
    · simp [hd] at hz
    · rw [if_pos hd] at hz
      by_cases hcond : e / (done : ℚ) ≠ 0 ∧ ((total : ℕ) : ℚ) ≠ 0
      · rw [if_pos hcond] at hz
        obtain ⟨hav, ht⟩ := hcond
        have he0 : e ≠ 0 := by
          intro h0
          exact hav (by simp [h0])
        have hepos : 0 < e := lt_of_le_of_ne he (Ne.symm he0)
        have hdn : done ≠ 0 := by simpa [hdone] using hd
        have hdpos : 0 < ((done : ℕ) : ℚ) := by
          exact_mod_cast Nat.pos_of_ne_zero hdn
        obtain rfl := Option.some_inj.mp hz.symm
        refine ⟨?_, le_max_left 0 _⟩
        by_cases hle : ((done : ℕ) : ℚ) ≤ (total : ℚ)
        · have : max 0 ((total : ℚ) - (done : ℚ)) = (total : ℚ) - (done : ℚ) :=
            max_eq_right (by linarith)
          rw [this]
        · push_neg at hle
          have h1 : max 0 ((total : ℚ) - (done : ℚ)) = 0 := max_eq_left (by linarith)
          have havpos : 0 < e / (done : ℚ) := div_pos hepos hdpos
          have hneg : e / (done : ℚ) * ((total : ℚ) - (done : ℚ)) ≤ 0 :=
            mul_nonpos_of_nonneg_of_nonpos (le_of_lt havpos) (by linarith)
          have hjs : jsRound (e / (done : ℚ) * ((total : ℚ) - (done : ℚ))) ≤ 0 := by
            have hle2 : jsRound (e / (done : ℚ) * ((total : ℚ) - (done : ℚ)))
                ≤ jsRound 0 := by
              apply Int.floor_le_floor
              linarith
            have hz2 : jsRound (0 : ℚ) = 0 := by norm_num [jsRound]
            omega
          have hjs0 : jsRound ((e / (done : ℚ)) * (0 : ℚ)) = 0 := by
            norm_num [jsRound]
          rw [h1, hjs0]
          omega
      · rw [if_neg hcond] at hz
        exact absurd hz (by simp)

/-- Witness for C3 (amended) at `done = 2`, `total = 5`,
`elapsedSeconds = 4`. -/
theorem eta_amended_witness :
    (0 : ℚ) ≤ 4
    ∧ ((etaSecOpt ((2 : ℕ) : ℚ) ((5 : ℕ) : ℚ) 4 = none ↔ ((2 : ℕ) = 0 ∨ (4 : ℚ) = 0 ∨ (5 : ℕ) = 0))
        ∧ ∀ z, etaSecOpt ((2 : ℕ) : ℚ) ((5 : ℕ) : ℚ) 4 = some z →
            z = max 0 (jsRound ((4 / ((2 : ℕ) : ℚ)) * max 0 (((5 : ℕ) : ℚ) - ((2 : ℕ) : ℚ))))
            ∧ 0 ≤ z) :=
  ⟨by norm_num, eta_amended 2 5 4 (by norm_num)⟩

/-- Claim C7: completion defaulting.  A `done` event with no usage, no
elapsed time, no stats and no filename (or with those objects present but
all their fields absent) produces the fully-defaulted UI record: all numeric
fields 0, label `"-"`, filename `"TC.csv"`, empty hidden limit detail — no
field is left missing. -/
theorem completion_defaulting (code message csv : Option String) :
    applyDoneUI ⟨none, csv, code, message, none, none, none⟩
        = ⟨"TC.csv", 0, 0, 0, 0, 0, 0, "-", 0, [], true⟩
    ∧ applyDoneUI ⟨none, csv, code, message, some {}, none, some {}⟩
        = ⟨"TC.csv", 0, 0, 0, 0, 0, 0, "-", 0, [], true⟩ := by
  constructor <;> rfl

/-- Claim C8: label precedence.  When `stats` carries both an area label and
a project label the resolved label is the area label; a project label alone
is used; with neither the label is the placeholder `"-"`. -/
theorem label_precedence (d : DoneData) (s : Stats) (a p : String) :
    (applyDoneUI { d with stats := some { s with area_path := some a, project_id := some p } }).mArea = a
    ∧ (applyDoneUI { d with stats := some { s with area_path := none, project_id := some p } }).mArea = p
    ∧ (applyDoneUI { d with stats := some { s with area_path := none, project_id := none } }).mArea = "-" :=
  ⟨rfl, rfl, rfl⟩

/-- Claim C10: zero treated as absent.  A `progress` event whose `total`
field is present but `0` (or absent) keeps the previous tracked total; a
`done` field that is absent or `0` sets the tracked done count to `0`; and a
`meta` event with an absent or `0` `total_blocks` sets the tracked total to
`0`. -/
theorem zero_falsy_fields (st : RunState) (dv tv : Option ℚ) (r : Option JPrim)
    (sc : Option String) :
    ((stepEvt st (.progress dv (some 0) r sc)).state).total = st.total
    ∧ ((stepEvt st (.progress dv none r sc)).state).total = st.total
    ∧ ((stepEvt st (.progress none tv r sc)).state).done = 0
    ∧ ((stepEvt st (.progress (some 0) tv r sc)).state).done = 0
    ∧ ((stepEvt st (.meta none)).state).total = 0
    ∧ ((stepEvt st (.meta (some 0))).state).total = 0 := by
  refine ⟨?_, ?_, ?_, ?_, ?_, ?_⟩ <;> simp [stepEvt, StepResult.state, jsOrNum]

/-! Section: Lemmas: the downloader. -/

theorem findCapture_skip (c : Char) (rest : List Char) (h : charLower c = 'f' → False) :
    findCapture (c :: rest) = findCapture rest := by
  have hm : matchesAt (c :: rest) = false := by
    have hexp : ((c :: rest).take 10).map charLower
        = charLower c :: ((rest.take 9).map charLower) := rfl
    rw [matchesAt, hexp, patFilename]
    show (charLower c == 'f'
      && ((rest.take 9).map charLower == ['i', 'l', 'e', 'n', 'a', 'm', 'e', '=', '"'])) = false
    rw [beq_eq_false_iff_ne.mpr h]
    simp
  rw [findCapture]
  simp [hm]

theorem takeWhile_append_all {p : Char → Bool} : ∀ (v : List Char), (∀ c ∈ v, p c = true) →
    ∀ (x : Char), p x = false → ∀ t : List Char, (v ++ x :: t).takeWhile p = v := by
  intro v
  induction v with
  | nil =>
    intro _ x hx t
    simp [List.takeWhile_cons, hx]
  | cons a as ih =>
    intro h x hx t
    have ha : p a = true := h a (by simp)
    simp [List.takeWhile_cons, ha, ih (fun c hc => h c (by simp [hc])) x hx t]

theorem findCapture_at (v : List Char) (hne : v ≠ []) (hq : ∀ ch ∈ v, ch ≠ '"') :
    findCapture ('f' :: 'i' :: 'l' :: 'e' :: 'n' :: 'a' :: 'm' :: 'e' :: '=' :: '"'
      :: (v ++ ['"'])) = some v := by
  rw [findCapture, if_pos (show matchesAt ('f' :: 'i' :: 'l' :: 'e' :: 'n' :: 'a' :: 'm'
    :: 'e' :: '=' :: '"' :: (v ++ ['"'])) = true from rfl)]
  dsimp only
  have hdrop : List.drop 10 ('f' :: 'i' :: 'l' :: 'e' :: 'n' :: 'a' :: 'm' :: 'e' :: '='
      :: '"' :: (v ++ ['"'])) = v ++ ['"'] := rfl
  rw [hdrop]
  have hq2 : ∀ c ∈ v, (c != '"') = true := by
    intro c hc
    simpa using hq c hc
  have htw : (v ++ '"' :: []).takeWhile (fun ch => ch != '"') = v :=
    takeWhile_append_all v hq2 '"' (by simp) []
  rw [htw]
  rw [if_pos ⟨List.length_pos.mpr hne, by simp⟩]

theorem findCapture_header (v : List Char) (hne : v ≠ []) (hq : ∀ ch ∈ v, ch ≠ '"') :
    findCapture ('a' :: 't' :: 't' :: 'a' :: 'c' :: 'h' :: 'm' :: 'e' :: 'n' :: 't' :: ';'
      :: ' ' :: 'f' :: 'i' :: 'l' :: 'e' :: 'n' :: 'a' :: 'm' :: 'e' :: '=' :: '"'
      :: (v ++ ['"'])) = some v := by
  rw [findCapture_skip 'a' _ (by decide), findCapture_skip 't' _ (by decide),
    findCapture_skip 't' _ (by decide), findCapture_skip 'a' _ (by decide),
    findCapture_skip 'c' _ (by decide), findCapture_skip 'h' _ (by decide),
    findCapture_skip 'm' _ (by decide), findCapture_skip 'e' _ (by decide),
    findCapture_skip 'n' _ (by decide), findCapture_skip 't' _ (by decide),
    findCapture_skip ';' _ (by decide), findCapture_skip ' ' _ (by decide)]
  exact findCapture_at v hne hq

theorem b64Val_b64Char : ∀ n, n < 64 → b64Val (b64Char n) = n := by decide

theorem b64Char_ne_pad : ∀ n, n < 64 → b64Char n ≠ '=' := by decide

theorem atob_btoa : ∀ (fuel : ℕ) (bs : List ℕ), bs.length ≤ fuel →
    (∀ b ∈ bs, b < 256) → atobGroups (btoaChars bs) = bs := by
  intro fuel
  induction fuel with
  | zero =>
    intro bs h1 _
    obtain rfl : bs = [] := List.length_eq_zero.mp (by omega)
    rfl
  | succ fuel ih =>
    intro bs hlen hb
    match bs with
    | [] => rfl
    | [x] =>
      have hx : x < 256 := hb x (by simp)
      rw [btoaChars, atobGroups, if_pos rfl]
      rw [b64Val_b64Char _ (by omega), b64Val_b64Char _ (by omega)]
      simp only [List.cons.injEq, and_true]
      omega
    | [x, y] =>
      have hx : x < 256 := hb x (by simp)
      have hy : y < 256 := hb y (by simp)
      rw [btoaChars, atobGroups, if_neg (b64Char_ne_pad _ (by omega)), if_pos rfl]
      rw [b64Val_b64Char _ (by omega), b64Val_b64Char _ (by omega),
        b64Val_b64Char _ (by omega)]
      simp only [List.cons.injEq, and_true]
      constructor
      · omega
      · omega
    | x :: y :: z :: rest =>
      have hx : x < 256 := hb x (by simp)
      have hy : y < 256 := hb y (by simp)
      have hz : z < 256 := hb z (by simp)
      have hrest : ∀ b ∈ rest, b < 256 := fun b h => hb b (by simp [h])
      have hlen2 : rest.length ≤ fuel := by
        simp only [List.length_cons] at hlen
        omega
      rw [btoaChars, atobGroups, if_neg (b64Char_ne_pad _ (by omega)),
        if_neg (b64Char_ne_pad _ (by omega))]
      rw [b64Val_b64Char _ (by omega), b64Val_b64Char _ (by omega),
        b64Val_b64Char _ (by omega), b64Val_b64Char _ (by omega)]
      rw [ih rest hlen2 hrest]
      simp only [List.cons.injEq]
      refine ⟨by omega, by omega, by omega, trivial⟩

/-- Claim C9: download priority.  With an inline payload present, the saved
bytes are exactly the base64 decoding of the payload (decoding inverts the
reference base64 encoding) and no network request is issued; with it absent,
exactly one retrieval request is issued, a non-ok response is a hard failure
with no retry, and on success the filename is the value captured by
`/filename="([^"]+)"/i` from the `Content-Disposition` header, with
`"TC.csv"` as the fallback when no value is present. -/
theorem download_priority :
    (∀ (b64 fn : String) (url : Option String) (resp : HttpResponse), b64 ≠ "" →
        downloadClick (some b64) fn url resp = (.saved (atobBytes b64) fn, 0))
    ∧ (∀ bs : List ℕ, (∀ b ∈ bs, b < 256) → atobGroups (btoaChars bs) = bs)
    ∧ (∀ (fn url : String) (resp : HttpResponse), url ≠ "" → resp.ok = false →
        downloadClick none fn (some url) resp = (.failed "UI_DOWNLOAD_FAILED", 1))
    ∧ (∀ (fn url : String) (resp : HttpResponse), url ≠ "" → resp.ok = true →
        downloadClick none fn (some url) resp
          = (.saved resp.body
              ((cdFilename (resp.contentDisposition.getD "")).getD "TC.csv"), 1))
    ∧ (∀ v : List Char, v ≠ [] → (∀ ch ∈ v, ch ≠ '"') →
        findCapture ('a' :: 't' :: 't' :: 'a' :: 'c' :: 'h' :: 'm' :: 'e' :: 'n' :: 't'
          :: ';' :: ' ' :: 'f' :: 'i' :: 'l' :: 'e' :: 'n' :: 'a' :: 'm' :: 'e' :: '='
          :: '"' :: (v ++ ['"'])) = some v)
    ∧ cdFilename "" = none := by
  refine ⟨?_, ?_, ?_, ?_, findCapture_header, rfl⟩
  · intro b64 fn url resp h
    simp [downloadClick, truthyStrOpt, h]
  · intro bs hb
    exact atob_btoa bs.length bs (le_refl _) hb
  · intro fn url resp hu hok
    simp [downloadClick, truthyStrOpt, hu, downloadCsvNoReload, hok]
  · intro fn url resp hu hok
    simp [downloadClick, truthyStrOpt, hu, downloadCsvNoReload, hok]

/-- Witness for C9 at concrete inputs: an inline payload "TWFu" (the bytes
of "Man"), the byte list [77, 97, 110], a failing and a succeeding fallback
response, and the header value "x". -/
theorem download_priority_witness :
    (("TWFu" : String) ≠ ""
      ∧ downloadClick (some "TWFu") "a.csv" none ⟨true, none, []⟩
          = (.saved (atobBytes "TWFu") "a.csv", 0))
    ∧ ((∀ b ∈ ([77, 97, 110] : List ℕ), b < 256)
      ∧ atobGroups (btoaChars [77, 97, 110]) = [77, 97, 110])
    ∧ (("/d" : String) ≠ ""
      ∧ downloadClick none "a.csv" (some "/d") ⟨false, none, [1]⟩
          = (.failed "UI_DOWNLOAD_FAILED", 1))
    ∧ downloadClick none "a.csv" (some "/d") ⟨true, some "x", [1]⟩
        = (.saved [1] ((cdFilename ((some "x" : Option String).getD "")).getD "TC.csv"), 1)
    ∧ findCapture ('a' :: 't' :: 't' :: 'a' :: 'c' :: 'h' :: 'm' :: 'e' :: 'n' :: 't'
        :: ';' :: ' ' :: 'f' :: 'i' :: 'l' :: 'e' :: 'n' :: 'a' :: 'm' :: 'e' :: '='
        :: '"' :: (['x'] ++ ['"'])) = some ['x'] :=
  ⟨⟨by decide, download_priority.1 "TWFu" "a.csv" none ⟨true, none, []⟩ (by decide)⟩,
   ⟨by decide, download_priority.2.1 [77, 97, 110] (by decide)⟩,
   ⟨by decide, download_priority.2.2.1 "a.csv" "/d" ⟨false, none, [1]⟩ (by decide) rfl⟩,
   download_priority.2.2.2.1 "a.csv" "/d" ⟨true, some "x", [1]⟩ (by decide) rfl,
   download_priority.2.2.2.2.1 ['x'] (by decide) (by decide)⟩

end TcGen
